import Mathlib

/-!
Verification development for the geocoin-carrier repository
(`src/main.ts` and `src/board.ts`, the latter containing the `Board`
grid registry followed by a second variant of the main module).

The TypeScript sources are shallowly embedded below: JavaScript `Map`
objects become insertion-ordered association lists, arrays become Lean
lists (with `push`/`pop` acting on the end of the list), and numbers
become rationals.  The deterministic generator `luck` lives in
`src/luck.ts`, which is not part of the provided sources; per the spec
it is a pure map from string keys to values in `[0,1)`, so every
operation that consults it takes it as an explicit function parameter.
-/

/-- `interface Coin` from `main.ts`: a coin record with its immutable
origin coordinates. -/
structure Coin where
  id : ℕ
  originalLat : ℚ
  originalLng : ℚ
deriving DecidableEq

/-- `interface UserTreasure` from `main.ts`: a coin held by the player,
carrying the coordinates of the cache it was collected from together
with the origin metadata. -/
structure UserTreasure where
  id : ℕ
  coordLat : ℚ
  coordLng : ℚ
  originalLat : ℚ
  originalLng : ℚ
deriving DecidableEq

/-- `interface GameCache` from `main.ts`, without the Leaflet marker
(pure UI state). -/
structure GameCache where
  treasures : List Coin
deriving DecidableEq

/-- Association-list lookup, modelling `Map.get`. -/
def lookupKey {β : Type} : List (String × β) → String → Option β
  | [], _ => none
  | e :: es, k => if e.1 = k then some e.2 else lookupKey es k

/-- Replace the value stored under an existing key, modelling `Map.set`
on a key already present (insertion order is preserved). -/
def setKey {β : Type} (m : List (String × β)) (k : String) (v : β) :
    List (String × β) :=
  m.map (fun e => if e.1 = k then (k, v) else e)

/-- `Map.set` in general: replace if the key is present, otherwise
append in insertion order. -/
def setOrAddKey {β : Type} (m : List (String × β)) (k : String) (v : β) :
    List (String × β) :=
  if (lookupKey m k).isSome then setKey m k v else m ++ [(k, v)]

/-- `Map.delete`, modelling removal of a key. -/
def removeKey {β : Type} (m : List (String × β)) (k : String) :
    List (String × β) :=
  m.filter (fun e => e.1 ≠ k)

/-- The template-literal cache key `` `${lat},${lng}` `` used by
`main.ts` to key the `caches` map. -/
def coordKey (lat lng : ℚ) : String :=
  toString lat ++ "," ++ toString lng

/-- `CACHE_ODDS = 0.1` from `main.ts`. -/
def CACHE_ODDS : ℚ := 1 / 10

/-- `TILE_UNIT = 1e-4` from `main.ts`. -/
def TILE_UNIT : ℚ := 1 / 10000

/-- The deep copy performed by the `CacheMemento` constructor:
`treasures.map((t) => ({ ...t }))`. -/
def mementoOf (treasures : List Coin) : List Coin :=
  treasures.map (fun t => { id := t.id, originalLat := t.originalLat, originalLng := t.originalLng })

/-- `CacheManager.restoreCacheState`: return the memento's stored coins
when a memento exists, and `[]` otherwise.  (An empty memento is
indistinguishable from a missing one: both yield `[]`.) -/
def restoreCacheState (cacheStates : List (String × List Coin)) (key : String) : List Coin :=
  (lookupKey cacheStates key).getD []

/-- The whole mutable state of `main.ts` that the cache/coin engine
touches: the active `caches` map, the `playerTreasures` inventory and
the `CacheManager`'s memento map.  The `minted` field is a ghost
history recording every coin ever created by the spawn logic; no
operation ever reads it, it only accumulates, so it does not influence
the embedded code. -/
structure GameState where
  caches : List (String × GameCache)
  playerTreasures : List UserTreasure
  cacheStates : List (String × List Coin)
  minted : List Coin
deriving DecidableEq

/-- The initial state: empty maps, empty inventory. -/
def initState : GameState := ⟨[], [], [], []⟩

/-- Failure conditions of the coin-transfer operations, matching the
spec's error taxonomy; each constructor corresponds to one short-circuit
branch of the guards in `pickUpCoins` / `returnCoin`. -/
inductive TransferError where
  | unknownCell
  | emptyCache
  | emptyInventory
deriving DecidableEq

/-- The key whose `luck` value is compared against `CACHE_ODDS` in
`initiateCaches` of `main.ts` (it is the cache key itself). -/
def mainSpawnRollKey (lat lng : ℚ) : String := coordKey lat lng

/-- The key whose `luck` value determines the freshly minted coin count
in `initiateCaches` of `main.ts`.  In the source this is the very same
expression `luck(cacheKey)` used for the spawn roll. -/
def mainCountRollKey (lat lng : ℚ) : String := coordKey lat lng

/-- The coins created by
`Array.from({length: numCoins}, (_, id) => ({id, originalLat, originalLng}))`. -/
def mintCoins (numCoins : ℕ) (lat lng : ℚ) : List Coin :=
  (List.range numCoins).map (fun id => ⟨id, lat, lng⟩)

/-- The body of the `initiateCaches` double loop in `main.ts` for a
single cell position: skip if a cache is already active, otherwise
restore from the memento map; when nothing was restored and the spawn
roll succeeds, mint `Math.floor(luck(cacheKey) * 100) + 1` coins.
A cache object is created only when the resulting coin list is
non-empty.  Freshly minted coins are also appended to the ghost
`minted` history. -/
def initiateCacheCell (luck : String → ℚ) (lat lng : ℚ) (s : GameState) : GameState :=
  let cacheKey := coordKey lat lng
  if (lookupKey s.caches cacheKey).isSome then s
  else
    let restored := restoreCacheState s.cacheStates cacheKey
    let fresh : List Coin :=
      if restored = [] ∧ luck (mainSpawnRollKey lat lng) < CACHE_ODDS then
        mintCoins (⌊luck (mainCountRollKey lat lng) * 100⌋ + 1).toNat lat lng
      else []
    let treasures := restored ++ fresh
    if treasures = [] then s
    else
      { s with
        caches := s.caches ++ [(cacheKey, ⟨treasures⟩)],
        minted := s.minted ++ fresh }

/-- `initiateCaches` from `main.ts`: run the cell body over the
`(2·vicinity+1)²` neighborhood positions, `dx` ascending outer and `dy`
ascending inner. -/
def intRange (lo hi : ℤ) : List ℤ :=
  (List.range (hi + 1 - lo).toNat).map (fun k : ℕ => lo + (k : ℤ))

def initiateCaches (luck : String → ℚ) (originLat originLng : ℚ)
    (vicinity : ℤ) (tileSize : ℚ) (s : GameState) : GameState :=
  (intRange (-vicinity) vicinity).foldl
    (fun s1 dx =>
      (intRange (-vicinity) vicinity).foldl
        (fun s2 dy =>
          initiateCacheCell luck (originLat + dx * tileSize) (originLng + dy * tileSize) s2)
        s1)
    s

/-- `pickUpCoins(lat, lng)` from `main.ts`: pop the most recently added
coin from the cache's `treasures` array and push it, wrapped as a
`UserTreasure`, onto the player inventory.  The two short-circuit
failures of the guard `cache && cache.treasures.length > 0` are
reported as `Except` errors (the source silently no-ops on them). -/
def pickUpCoins (lat lng : ℚ) (s : GameState) :
    Except TransferError Coin × GameState :=
  let cacheKey := coordKey lat lng
  match lookupKey s.caches cacheKey with
  | none => (.error .unknownCell, s)
  | some cache =>
    match cache.treasures.getLast? with
    | none => (.error .emptyCache, s)
    | some coin =>
      let userTreasure : UserTreasure :=
        ⟨coin.id, lat, lng, coin.originalLat, coin.originalLng⟩
      (.ok coin,
        { s with
          caches := setKey s.caches cacheKey ⟨cache.treasures.dropLast⟩,
          playerTreasures := s.playerTreasures ++ [userTreasure] })

/-- `returnCoin(lat, lng)` from `main.ts`: pop the most recently
collected treasure from the player inventory and push it, re-wrapped as
a `Coin`, onto the target cache's `treasures`. -/
def returnCoin (lat lng : ℚ) (s : GameState) :
    Except TransferError Coin × GameState :=
  let cacheKey := coordKey lat lng
  match lookupKey s.caches cacheKey with
  | none => (.error .unknownCell, s)
  | some cache =>
    match s.playerTreasures.getLast? with
    | none => (.error .emptyInventory, s)
    | some treasure =>
      let coin : Coin := ⟨treasure.id, treasure.originalLat, treasure.originalLng⟩
      (.ok coin,
        { s with
          caches := setKey s.caches cacheKey ⟨cache.treasures ++ [coin]⟩,
          playerTreasures := s.playerTreasures.dropLast })

/-- The per-cache body of `regenerateCaches` from `main.ts` when the
cache's distance from the player exceeds `vicinity * tileSize` (the
geographic `distanceTo` trigger itself is floating-point Leaflet code
and is abstracted away; this is the eviction effect): save a deep-copy
memento under the same key and delete the cache from the active map. -/
def evictCell (cacheKey : String) (s : GameState) : GameState :=
  match lookupKey s.caches cacheKey with
  | none => s
  | some cache =>
    { s with
      cacheStates := setOrAddKey s.cacheStates cacheKey (mementoOf cache.treasures),
      caches := removeKey s.caches cacheKey }

/-- The projection turning a held `UserTreasure` back into the `Coin`
record `returnCoin` would deposit; used to compare custody across the
two inventories. -/
def userCoin (t : UserTreasure) : Coin :=
  ⟨t.id, t.originalLat, t.originalLng⟩

/-- All coin records currently in custody: every active cache's
sequence, in map order, followed by the player inventory. -/
def allCoins (s : GameState) : List Coin :=
  (s.caches.flatMap (fun e => e.2.treasures)) ++ s.playerTreasures.map userCoin

/-- The operations quantified over by the conservation claim: cache
spawns, collects and deposits. -/
inductive GameAction where
  | spawn (lat lng : ℚ)
  | collect (lat lng : ℚ)
  | deposit (lat lng : ℚ)

/-- One event-handler step of `main.ts`. -/
def gameStep (luck : String → ℚ) (s : GameState) : GameAction → GameState
  | .spawn lat lng => initiateCacheCell luck lat lng s
  | .collect lat lng => (pickUpCoins lat lng s).2
  | .deposit lat lng => (returnCoin lat lng s).2

/-- Run a sequence of spawn/collect/deposit events from the initial
state. -/
def runGame (luck : String → ℚ) (acts : List GameAction) : GameState :=
  acts.foldl (gameStep luck) initState

/-! ### Association-list lemmas -/

theorem lookupKey_nil {β : Type} (k : String) : lookupKey ([] : List (String × β)) k = none := rfl

theorem lookupKey_cons {β : Type} (e : String × β) (es : List (String × β)) (k : String) :
    lookupKey (e :: es) k = if e.1 = k then some e.2 else lookupKey es k := rfl

theorem lookupKey_append {β : Type} (m₁ m₂ : List (String × β)) (k : String) :
    lookupKey (m₁ ++ m₂) k = ((lookupKey m₁ k).or (lookupKey m₂ k)) := by
  induction m₁ with
  | nil => simp [lookupKey]
  | cons e es ih =>
    by_cases h : e.1 = k <;> simp [lookupKey_cons, h, ih]

theorem lookupKey_isSome_iff {β : Type} (m : List (String × β)) (k : String) :
    (lookupKey m k).isSome = true ↔ k ∈ m.map Prod.fst := by
  induction m with
  | nil => simp [lookupKey]
  | cons e es ih =>
    by_cases h : e.1 = k <;> simp [lookupKey_cons, h, ih]
    exact fun hk => (h hk.symm).elim

theorem lookupKey_eq_none_iff {β : Type} (m : List (String × β)) (k : String) :
    lookupKey m k = none ↔ k ∉ m.map Prod.fst := by
  rw [← lookupKey_isSome_iff]
  cases lookupKey m k <;> simp

theorem lookupKey_eq_some_decomp {β : Type} {m : List (String × β)} {k : String} {v : β}
    (h : lookupKey m k = some v) :
    ∃ m₁ m₂, m = m₁ ++ (k, v) :: m₂ ∧ ∀ e ∈ m₁, e.1 ≠ k := by
  induction m with
  | nil => simp [lookupKey] at h
  | cons e es ih =>
    rw [lookupKey_cons] at h
    by_cases he : e.1 = k
    · rw [if_pos he] at h
      refine ⟨[], es, ?_, by simp⟩
      obtain ⟨e1, e2⟩ := e
      simp at he h
      simp [he, h]
    · rw [if_neg he] at h
      obtain ⟨m₁, m₂, hm, hne⟩ := ih h
      exact ⟨e :: m₁, m₂, by simp [hm], by simpa [he] using hne⟩

theorem setKey_of_forall_ne {β : Type} {m : List (String × β)} {k : String} (v : β)
    (h : ∀ e ∈ m, e.1 ≠ k) : setKey m k v = m := by
  induction m with
  | nil => rfl
  | cons e es ih =>
    have he : e.1 ≠ k := h e (by simp)
    simp only [setKey, List.map_cons, if_neg he]
    have := ih (fun e' he' => h e' (by simp [he']))
    simpa [setKey] using this

theorem setKey_append {β : Type} (m₁ m₂ : List (String × β)) (k : String) (v : β) :
    setKey (m₁ ++ m₂) k v = setKey m₁ k v ++ setKey m₂ k v := by
  simp [setKey]

theorem setKey_cons {β : Type} (e : String × β) (es : List (String × β)) (k : String) (v : β) :
    setKey (e :: es) k v = (if e.1 = k then (k, v) else e) :: setKey es k v := by
  simp [setKey]

theorem setKey_map_fst {β : Type} (m : List (String × β)) (k : String) (v : β) :
    (setKey m k v).map Prod.fst = m.map Prod.fst := by
  induction m with
  | nil => rfl
  | cons e es ih =>
    by_cases h : e.1 = k <;> simp [setKey_cons, h, ih]

theorem lookupKey_setKey_ne {β : Type} (m : List (String × β)) {k k' : String} (v : β)
    (h : k' ≠ k) : lookupKey (setKey m k v) k' = lookupKey m k' := by
  induction m with
  | nil => rfl
  | cons e es ih =>
    by_cases he : e.1 = k
    · simp [setKey_cons, he, lookupKey_cons, Ne.symm h, ih]
    · simp [setKey_cons, he, lookupKey_cons, ih]

theorem lookupKey_setKey_self {β : Type} {m : List (String × β)} {k : String} {w : β} (v : β)
    (h : lookupKey m k = some w) : lookupKey (setKey m k v) k = some v := by
  induction m with
  | nil => simp [lookupKey] at h
  | cons e es ih =>
    by_cases he : e.1 = k
    · simp [setKey_cons, he, lookupKey_cons]
    · rw [lookupKey_cons, if_neg he] at h
      simp [setKey_cons, he, lookupKey_cons, ih h]

theorem lookupKey_removeKey_self {β : Type} (m : List (String × β)) (k : String) :
    lookupKey (removeKey m k) k = none := by
  induction m with
  | nil => rfl
  | cons e es ih =>
    by_cases he : e.1 = k
    · simpa [removeKey, he] using ih
    · simpa [removeKey, lookupKey_cons, he] using ih

theorem lookupKey_setOrAddKey_self {β : Type} (m : List (String × β)) (k : String) (v : β) :
    lookupKey (setOrAddKey m k v) k = some v := by
  unfold setOrAddKey
  by_cases h : (lookupKey m k).isSome
  · rw [if_pos h]
    obtain ⟨w, hw⟩ := Option.isSome_iff_exists.mp h
    exact lookupKey_setKey_self v hw
  · rw [if_neg h]
    have hnone : lookupKey m k = none := by
      cases hc : lookupKey m k
      · rfl
      · rw [hc] at h; simp at h
    rw [lookupKey_append, hnone]
    simp [lookupKey_cons]

theorem mementoOf_eq (treasures : List Coin) : mementoOf treasures = treasures := by
  unfold mementoOf
  induction treasures with
  | nil => rfl
  | cons t ts ih => simp [ih]

/-! ### Branch equations for the transfer operations -/

theorem pickUpCoins_of_unknown {lat lng : ℚ} {s : GameState}
    (h : lookupKey s.caches (coordKey lat lng) = none) :
    pickUpCoins lat lng s = (.error .unknownCell, s) := by
  simp [pickUpCoins, h]

theorem pickUpCoins_of_empty {lat lng : ℚ} {s : GameState} {cache : GameCache}
    (h : lookupKey s.caches (coordKey lat lng) = some cache)
    (ht : cache.treasures = []) :
    pickUpCoins lat lng s = (.error .emptyCache, s) := by
  simp [pickUpCoins, h, ht]

theorem pickUpCoins_of_pop {lat lng : ℚ} {s : GameState} {cache : GameCache}
    {ds : List Coin} {c : Coin}
    (h : lookupKey s.caches (coordKey lat lng) = some cache)
    (ht : cache.treasures = ds ++ [c]) :
    pickUpCoins lat lng s =
      (.ok c,
        { s with
          caches := setKey s.caches (coordKey lat lng) ⟨ds⟩,
          playerTreasures :=
            s.playerTreasures ++ [⟨c.id, lat, lng, c.originalLat, c.originalLng⟩] }) := by
  simp [pickUpCoins, h, ht, List.getLast?_concat, List.dropLast_concat]

theorem returnCoin_of_unknown {lat lng : ℚ} {s : GameState}
    (h : lookupKey s.caches (coordKey lat lng) = none) :
    returnCoin lat lng s = (.error .unknownCell, s) := by
  simp [returnCoin, h]

theorem returnCoin_of_emptyInventory {lat lng : ℚ} {s : GameState} {cache : GameCache}
    (h : lookupKey s.caches (coordKey lat lng) = some cache)
    (hp : s.playerTreasures = []) :
    returnCoin lat lng s = (.error .emptyInventory, s) := by
  simp [returnCoin, h, hp]

theorem returnCoin_of_push {lat lng : ℚ} {s : GameState} {cache : GameCache}
    {ts : List UserTreasure} {u : UserTreasure}
    (h : lookupKey s.caches (coordKey lat lng) = some cache)
    (hp : s.playerTreasures = ts ++ [u]) :
    returnCoin lat lng s =
      (.ok (userCoin u),
        { s with
          caches := setKey s.caches (coordKey lat lng) ⟨cache.treasures ++ [userCoin u]⟩,
          playerTreasures := ts }) := by
  simp [returnCoin, h, hp, List.getLast?_concat, List.dropLast_concat, userCoin]

theorem mintCoins_eq_nil_iff (n : ℕ) (lat lng : ℚ) : mintCoins n lat lng = [] ↔ n = 0 := by
  simp [mintCoins, List.range_eq_nil]

theorem mintCoins_length (n : ℕ) (lat lng : ℚ) : (mintCoins n lat lng).length = n := by
  simp [mintCoins]

theorem mintCoins_nodup (n : ℕ) (lat lng : ℚ) : (mintCoins n lat lng).Nodup := by
  refine List.Nodup.map ?_ (List.nodup_range n)
  intro a b hab
  simpa using congrArg Coin.id hab

theorem mem_mintCoins {n : ℕ} {lat lng : ℚ} {c : Coin} (h : c ∈ mintCoins n lat lng) :
    c.originalLat = lat ∧ c.originalLng = lng := by
  simp only [mintCoins, List.mem_map, List.mem_range] at h
  obtain ⟨id, _, rfl⟩ := h
  exact ⟨rfl, rfl⟩

theorem initiateCacheCell_of_active {luck : String → ℚ} {lat lng : ℚ} {s : GameState}
    (h : (lookupKey s.caches (coordKey lat lng)).isSome) :
    initiateCacheCell luck lat lng s = s := by
  simp [initiateCacheCell, h]

theorem initiateCacheCell_of_fresh {luck : String → ℚ} {lat lng : ℚ} {s : GameState}
    (hnone : lookupKey s.caches (coordKey lat lng) = none)
    (hrest : restoreCacheState s.cacheStates (coordKey lat lng) = []) :
    initiateCacheCell luck lat lng s =
      if luck (mainSpawnRollKey lat lng) < CACHE_ODDS ∧
          (⌊luck (mainCountRollKey lat lng) * 100⌋ + 1).toNat ≠ 0 then
        { s with
          caches := s.caches ++
            [(coordKey lat lng,
              ⟨mintCoins (⌊luck (mainCountRollKey lat lng) * 100⌋ + 1).toNat lat lng⟩)],
          minted := s.minted ++
            mintCoins (⌊luck (mainCountRollKey lat lng) * 100⌋ + 1).toNat lat lng }
      else s := by
  unfold initiateCacheCell
  by_cases hroll : luck (mainSpawnRollKey lat lng) < CACHE_ODDS
  · by_cases hn : (⌊luck (mainCountRollKey lat lng) * 100⌋ + 1).toNat = 0
    · simp [hnone, hrest, hroll, hn, mintCoins_eq_nil_iff]
    · simp [hnone, hrest, hroll, hn, mintCoins_eq_nil_iff]
  · simp [hnone, hrest, hroll]

/-! ### Coin conservation (claim C1) -/

/-- Inductive invariant for traces of spawns, collects and deposits:
the memento map stays empty (no eviction occurs in this operation set),
cache keys are distinct, custody of coins is conserved against the
ghost `minted` history, minted coins are pairwise distinct, and every
minted coin's origin key denotes an active cache. -/
structure ConsInv (s : GameState) : Prop where
  states_nil : s.cacheStates = []
  keys_nodup : (s.caches.map Prod.fst).Nodup
  conserve : ∀ x : Coin, (allCoins s).count x = s.minted.count x
  minted_nodup : s.minted.Nodup
  origin_key : ∀ c ∈ s.minted,
    (lookupKey s.caches (coordKey c.originalLat c.originalLng)).isSome

theorem consInv_init : ConsInv initState := by
  constructor <;> simp [initState, allCoins]

theorem consInv_pickUpCoins (lat lng : ℚ) {s : GameState} (h : ConsInv s) :
    ConsInv (pickUpCoins lat lng s).2 := by
  cases hc : lookupKey s.caches (coordKey lat lng) with
  | none => rw [pickUpCoins_of_unknown hc]; exact h
  | some cache =>
    rcases List.eq_nil_or_concat cache.treasures with ht | ⟨ds, c, ht⟩
    · rw [pickUpCoins_of_empty hc ht]; exact h
    · rw [List.concat_eq_append] at ht
      rw [pickUpCoins_of_pop hc ht]
      obtain ⟨m₁, m₂, hm, hne⟩ := lookupKey_eq_some_decomp hc
      have hkeys := h.keys_nodup
      rw [hm] at hkeys
      simp only [List.map_append, List.map_cons] at hkeys
      have hk2 : ∀ e ∈ m₂, e.1 ≠ coordKey lat lng := by
        intro e he heq
        have h2 := (List.nodup_append.mp hkeys).2.1
        rw [List.nodup_cons] at h2
        exact h2.1 (heq ▸ List.mem_map_of_mem Prod.fst he)
      have hset : setKey s.caches (coordKey lat lng) ⟨ds⟩ =
          m₁ ++ (coordKey lat lng, ⟨ds⟩) :: m₂ := by
        rw [hm, setKey_append, setKey_cons, if_pos rfl,
          setKey_of_forall_ne _ hne, setKey_of_forall_ne _ hk2]
      constructor
      · exact h.states_nil
      · simpa only [setKey_map_fst] using h.keys_nodup
      · intro x
        have hcons := h.conserve x
        have hx : userCoin ⟨c.id, lat, lng, c.originalLat, c.originalLng⟩ = c := rfl
        simp only [allCoins, hm, ht, List.flatMap_append, List.flatMap_cons,
          List.map_append, List.count_append] at hcons
        simp only [allCoins, hset, List.flatMap_append, List.flatMap_cons,
          List.map_append, List.map_cons, List.map_nil, hx, List.count_append]
        omega
      · exact h.minted_nodup
      · intro c' hc'
        have := h.origin_key c' hc'
        rw [lookupKey_isSome_iff] at this ⊢
        simpa only [setKey_map_fst] using this

theorem consInv_returnCoin (lat lng : ℚ) {s : GameState} (h : ConsInv s) :
    ConsInv (returnCoin lat lng s).2 := by
  cases hc : lookupKey s.caches (coordKey lat lng) with
  | none => rw [returnCoin_of_unknown hc]; exact h
  | some cache =>
    rcases List.eq_nil_or_concat s.playerTreasures with hp | ⟨ts, u, hp⟩
    · rw [returnCoin_of_emptyInventory hc hp]; exact h
    · rw [List.concat_eq_append] at hp
      rw [returnCoin_of_push hc hp]
      obtain ⟨m₁, m₂, hm, hne⟩ := lookupKey_eq_some_decomp hc
      have hkeys := h.keys_nodup
      rw [hm] at hkeys
      simp only [List.map_append, List.map_cons] at hkeys
      have hk2 : ∀ e ∈ m₂, e.1 ≠ coordKey lat lng := by
        intro e he heq
        have h2 := (List.nodup_append.mp hkeys).2.1
        rw [List.nodup_cons] at h2
        exact h2.1 (heq ▸ List.mem_map_of_mem Prod.fst he)
      have hset : setKey s.caches (coordKey lat lng) ⟨cache.treasures ++ [userCoin u]⟩ =
          m₁ ++ (coordKey lat lng, ⟨cache.treasures ++ [userCoin u]⟩) :: m₂ := by
        rw [hm, setKey_append, setKey_cons, if_pos rfl,
          setKey_of_forall_ne _ hne, setKey_of_forall_ne _ hk2]
      constructor
      · exact h.states_nil
      · simpa only [setKey_map_fst] using h.keys_nodup
      · intro x
        have hcons := h.conserve x
        simp only [allCoins, hm, hp, List.flatMap_append, List.flatMap_cons,
          List.map_append, List.map_cons, List.map_nil, List.count_append] at hcons
        simp only [allCoins, hset, List.flatMap_append, List.flatMap_cons,
          List.map_append, List.map_cons, List.map_nil, List.count_append]
        omega
      · exact h.minted_nodup
      · intro c' hc'
        have := h.origin_key c' hc'
        rw [lookupKey_isSome_iff] at this ⊢
        simpa only [setKey_map_fst] using this

theorem consInv_initiateCacheCell (luck : String → ℚ) (lat lng : ℚ) {s : GameState}
    (h : ConsInv s) : ConsInv (initiateCacheCell luck lat lng s) := by
  cases hc : lookupKey s.caches (coordKey lat lng) with
  | some cache =>
    rw [initiateCacheCell_of_active (by simp [hc])]; exact h
  | none =>
    rw [initiateCacheCell_of_fresh hc (by rw [h.states_nil]; rfl)]
    by_cases hcond : luck (mainSpawnRollKey lat lng) < CACHE_ODDS ∧
        (⌊luck (mainCountRollKey lat lng) * 100⌋ + 1).toNat ≠ 0
    · rw [if_pos hcond]
      have hkmem : coordKey lat lng ∉ s.caches.map Prod.fst :=
        (lookupKey_eq_none_iff _ _).mp hc
      constructor
      · exact h.states_nil
      · simp only [List.map_append, List.map_cons, List.map_nil]
        rw [List.nodup_append]
        refine ⟨h.keys_nodup, List.nodup_singleton _, ?_⟩
        intro a ha hb
        rw [List.mem_singleton] at hb
        exact hkmem (hb ▸ ha)
      · intro x
        have hcons := h.conserve x
        simp only [allCoins, List.flatMap_append, List.flatMap_cons, List.flatMap_nil,
          List.count_append, List.count_nil, List.append_nil] at hcons ⊢
        omega
      · rw [List.nodup_append]
        refine ⟨h.minted_nodup, mintCoins_nodup _ _ _, ?_⟩
        intro a ha hb
        obtain ⟨hlat, hlng⟩ := mem_mintCoins hb
        have := h.origin_key a ha
        rw [hlat, hlng, hc] at this
        simp at this
      · intro c' hc'
        rw [List.mem_append] at hc'
        rcases hc' with hold | hnew
        · have := h.origin_key c' hold
          rw [lookupKey_append]
          cases hl : lookupKey s.caches (coordKey c'.originalLat c'.originalLng)
          · rw [hl] at this; simp at this
          · simp [hl]
        · obtain ⟨hlat, hlng⟩ := mem_mintCoins hnew
          rw [hlat, hlng, lookupKey_append, hc]
          simp [lookupKey_cons]
    · rw [if_neg hcond]; exact h

theorem consInv_gameStep (luck : String → ℚ) {s : GameState} (a : GameAction)
    (h : ConsInv s) : ConsInv (gameStep luck s a) := by
  cases a with
  | spawn lat lng => exact consInv_initiateCacheCell luck lat lng h
  | collect lat lng => exact consInv_pickUpCoins lat lng h
  | deposit lat lng => exact consInv_returnCoin lat lng h

theorem consInv_foldl (luck : String → ℚ) (acts : List GameAction) :
    ∀ s : GameState, ConsInv s → ConsInv (acts.foldl (gameStep luck) s) := by
  induction acts with
  | nil => intro s h; exact h
  | cons a rest ih =>
    intro s h
    exact ih _ (consInv_gameStep luck a h)

theorem consInv_runGame (luck : String → ℚ) (acts : List GameAction) :
    ConsInv (runGame luck acts) :=
  consInv_foldl luck acts initState consInv_init

/-- A concrete deterministic generator used for closed evaluations: every
key rolls `0`, which is below `CACHE_ODDS`, so every fresh cell spawns
`Math.floor(0 * 100) + 1 = 1` coin. -/
def luck0 : String → ℚ := fun _ => 0

theorem initiateCacheCell_luck0 (lat lng : ℚ) (s : GameState)
    (hnone : lookupKey s.caches (coordKey lat lng) = none)
    (hrest : restoreCacheState s.cacheStates (coordKey lat lng) = []) :
    initiateCacheCell luck0 lat lng s =
      { s with
        caches := s.caches ++ [(coordKey lat lng, ⟨[⟨0, lat, lng⟩]⟩)],
        minted := s.minted ++ [⟨0, lat, lng⟩] } := by
  rw [initiateCacheCell_of_fresh hnone hrest]
  have h100 : (⌊luck0 (mainCountRollKey lat lng) * 100⌋ + 1).toNat = 1 := by
    norm_num [luck0]
  have hroll : luck0 (mainSpawnRollKey lat lng) < CACHE_ODDS := by
    norm_num [luck0, CACHE_ODDS]
  rw [if_pos ⟨hroll, by rw [h100]; exact one_ne_zero⟩, h100]
  rfl

/-- The claim's strict custody predicate: the coin is in the cache at its
own origin key. -/
def inOriginCache (s : GameState) (c : Coin) : Prop :=
  c ∈ ((lookupKey s.caches (coordKey c.originalLat c.originalLng)).getD ⟨[]⟩).treasures

/-- The coin is held by the player. -/
def inPlayerInventory (s : GameState) (c : Coin) : Prop :=
  c ∈ s.playerTreasures.map userCoin

instance (s : GameState) (c : Coin) : Decidable (inOriginCache s c) := by
  unfold inOriginCache; infer_instance

instance (s : GameState) (c : Coin) : Decidable (inPlayerInventory s c) := by
  unfold inPlayerInventory; infer_instance

/-- Claim C1 exactly as stated: every minted coin is in exactly one of
its originating cache's sequence and the player inventory. -/
def StrictOriginConservation (s : GameState) : Prop :=
  ∀ c ∈ s.minted,
    (inOriginCache s c ∧ ¬ inPlayerInventory s c) ∨
    (¬ inOriginCache s c ∧ inPlayerInventory s c)

instance (s : GameState) : Decidable (StrictOriginConservation s) := by
  unfold StrictOriginConservation; infer_instance

/-- **C1, counterexample.**  Spawn caches at `(0,0)` and `(1,1)`, collect
the single coin of the `(0,0)` cache and deposit it into the `(1,1)`
cache.  The coin minted at `(0,0)` now sits in the non-originating
`(1,1)` cache: it is in neither its originating cache's sequence nor the
player inventory, refuting the claim as stated. -/
theorem c1_counterexample :
    ¬ StrictOriginConservation
      (runGame luck0 [.spawn 0 0, .spawn 1 1, .collect 0 0, .deposit 1 1]) := by
  have e1 : gameStep luck0 initState (.spawn 0 0) =
      ⟨[(coordKey 0 0, ⟨[⟨0, 0, 0⟩]⟩)], [], [], [⟨0, 0, 0⟩]⟩ := by
    simp only [gameStep]
    rw [initiateCacheCell_luck0 0 0 initState rfl rfl]
    rfl
  have e2 : gameStep luck0 (⟨[(coordKey 0 0, ⟨[⟨0, 0, 0⟩]⟩)], [], [], [⟨0, 0, 0⟩]⟩ : GameState)
      (.spawn 1 1) =
      ⟨[(coordKey 0 0, ⟨[⟨0, 0, 0⟩]⟩), (coordKey 1 1, ⟨[⟨0, 1, 1⟩]⟩)], [], [],
        [⟨0, 0, 0⟩, ⟨0, 1, 1⟩]⟩ := by
    simp only [gameStep]
    rw [initiateCacheCell_luck0 1 1 _ (by decide) (by decide)]
    rfl
  have e3 : gameStep luck0
      (⟨[(coordKey 0 0, ⟨[⟨0, 0, 0⟩]⟩), (coordKey 1 1, ⟨[⟨0, 1, 1⟩]⟩)], [], [],
        [⟨0, 0, 0⟩, ⟨0, 1, 1⟩]⟩ : GameState) (.collect 0 0) =
      ⟨[(coordKey 0 0, ⟨[]⟩), (coordKey 1 1, ⟨[⟨0, 1, 1⟩]⟩)], [⟨0, 0, 0, 0, 0⟩], [],
        [⟨0, 0, 0⟩, ⟨0, 1, 1⟩]⟩ := by
    simp only [gameStep]
    rw [pickUpCoins_of_pop (show _ = some (⟨[⟨0, 0, 0⟩]⟩ : GameCache) by decide)
      (show _ = [] ++ [(⟨0, 0, 0⟩ : Coin)] from rfl)]
    decide
  have e4 : gameStep luck0
      (⟨[(coordKey 0 0, ⟨[]⟩), (coordKey 1 1, ⟨[⟨0, 1, 1⟩]⟩)], [⟨0, 0, 0, 0, 0⟩], [],
        [⟨0, 0, 0⟩, ⟨0, 1, 1⟩]⟩ : GameState) (.deposit 1 1) =
      ⟨[(coordKey 0 0, ⟨[]⟩), (coordKey 1 1, ⟨[⟨0, 1, 1⟩, ⟨0, 0, 0⟩]⟩)], [], [],
        [⟨0, 0, 0⟩, ⟨0, 1, 1⟩]⟩ := by
    simp only [gameStep]
    rw [returnCoin_of_push (show _ = some (⟨[⟨0, 1, 1⟩]⟩ : GameCache) by decide)
      (show _ = [] ++ [(⟨0, 0, 0, 0, 0⟩ : UserTreasure)] from rfl)]
    decide
  have hrun : runGame luck0 [.spawn 0 0, .spawn 1 1, .collect 0 0, .deposit 1 1] =
      ⟨[(coordKey 0 0, ⟨[]⟩), (coordKey 1 1, ⟨[⟨0, 1, 1⟩, ⟨0, 0, 0⟩]⟩)], [], [],
        [⟨0, 0, 0⟩, ⟨0, 1, 1⟩]⟩ := by
    simp only [runGame, List.foldl_cons, List.foldl_nil]
    rw [e1, e2, e3, e4]
  rw [hrun]
  decide

/-- **C1 (amended).**  Over every sequence of cache spawns, collects and
deposits, every coin ever minted occurs exactly once in the combined
custody pool — the concatenation of all active caches' coin sequences
and the player inventory.  (The claim's restriction to the *originating*
cache fails, since a deposit may target any open cache; exclusivity
holds for the union of all caches instead.) -/
theorem c1_conservation_amended (luck : String → ℚ) (acts : List GameAction) :
    ∀ c ∈ (runGame luck acts).minted,
      (allCoins (runGame luck acts)).count c = 1 := by
  intro c hc
  have h := consInv_runGame luck acts
  rw [h.conserve c]
  exact List.count_eq_one_of_mem h.minted_nodup hc

/-- Witness for `c1_conservation_amended` at a concrete trace. -/
theorem c1_conservation_amended_witness :
    (⟨0, 0, 0⟩ : Coin) ∈ (runGame luck0 [.spawn 0 0]).minted ∧
    (allCoins (runGame luck0 [.spawn 0 0])).count ⟨0, 0, 0⟩ = 1 := by
  have hrun : runGame luck0 [.spawn 0 0] =
      ⟨[(coordKey 0 0, ⟨[⟨0, 0, 0⟩]⟩)], [], [], [⟨0, 0, 0⟩]⟩ := by
    simp only [runGame, List.foldl_cons, List.foldl_nil, gameStep]
    rw [initiateCacheCell_luck0 0 0 initState rfl rfl]
    rfl
  have hmem : (⟨0, 0, 0⟩ : Coin) ∈ (runGame luck0 [.spawn 0 0]).minted := by
    rw [hrun]; decide
  exact ⟨hmem, c1_conservation_amended luck0 [.spawn 0 0] ⟨0, 0, 0⟩ hmem⟩

/-! ### Eviction / restoration (claims C2 and C4) -/

theorem evictCell_of_active {k : String} {s : GameState} {cache : GameCache}
    (h : lookupKey s.caches k = some cache) :
    evictCell k s =
      { s with
        cacheStates := setOrAddKey s.cacheStates k (mementoOf cache.treasures),
        caches := removeKey s.caches k } := by
  unfold evictCell
  rw [h]

theorem initiateCacheCell_of_restored {luck : String → ℚ} {lat lng : ℚ} {s : GameState}
    {cs : List Coin}
    (hnone : lookupKey s.caches (coordKey lat lng) = none)
    (hrest : restoreCacheState s.cacheStates (coordKey lat lng) = cs)
    (hne : cs ≠ []) :
    initiateCacheCell luck lat lng s =
      { s with caches := s.caches ++ [(coordKey lat lng, ⟨cs⟩)] } := by
  unfold initiateCacheCell
  simp [hnone, hrest, hne]

/-- **C2, evaluation of the code at the failing input.**  A cell spawns
one coin (roll `0 < 0.1`), the coin is collected, then the empty cache
is evicted and the cell re-enters the window.  `restoreCacheState`
returns `[]` for the empty memento, so `initiateCaches` re-runs the
spawn roll for the same key (deterministically below the odds again)
and mints a duplicate coin: the cache re-appears holding one coin
(instead of staying empty) and the minted history now contains the same
coin twice. -/
theorem c2_remint_eval :
    lookupKey (initiateCacheCell luck0 0 0
        (evictCell (coordKey 0 0)
          ((pickUpCoins 0 0 (initiateCacheCell luck0 0 0 initState)).2))).caches
      (coordKey 0 0) = some ⟨[⟨0, 0, 0⟩]⟩ ∧
    ¬ (initiateCacheCell luck0 0 0
        (evictCell (coordKey 0 0)
          ((pickUpCoins 0 0 (initiateCacheCell luck0 0 0 initState)).2))).minted.Nodup := by
  have h1 : initiateCacheCell luck0 0 0 initState =
      ⟨[(coordKey 0 0, ⟨[⟨0, 0, 0⟩]⟩)], [], [], [⟨0, 0, 0⟩]⟩ := by
    rw [initiateCacheCell_luck0 0 0 initState rfl rfl]
    rfl
  have h2 : (pickUpCoins 0 0
        (⟨[(coordKey 0 0, ⟨[⟨0, 0, 0⟩]⟩)], [], [], [⟨0, 0, 0⟩]⟩ : GameState)).2 =
      ⟨[(coordKey 0 0, ⟨[]⟩)], [⟨0, 0, 0, 0, 0⟩], [], [⟨0, 0, 0⟩]⟩ := by
    rw [pickUpCoins_of_pop (show _ = some (⟨[⟨0, 0, 0⟩]⟩ : GameCache) by decide)
      (show _ = [] ++ [(⟨0, 0, 0⟩ : Coin)] from rfl)]
    decide
  have h3 : evictCell (coordKey 0 0)
      (⟨[(coordKey 0 0, ⟨[]⟩)], [⟨0, 0, 0, 0, 0⟩], [], [⟨0, 0, 0⟩]⟩ : GameState) =
      ⟨[], [⟨0, 0, 0, 0, 0⟩], [(coordKey 0 0, [])], [⟨0, 0, 0⟩]⟩ := by
    rw [evictCell_of_active (show _ = some (⟨[]⟩ : GameCache) by decide)]
    decide
  have h4 : initiateCacheCell luck0 0 0
      (⟨[], [⟨0, 0, 0, 0, 0⟩], [(coordKey 0 0, [])], [⟨0, 0, 0⟩]⟩ : GameState) =
      ⟨[(coordKey 0 0, ⟨[⟨0, 0, 0⟩]⟩)], [⟨0, 0, 0, 0, 0⟩], [(coordKey 0 0, [])],
        [⟨0, 0, 0⟩, ⟨0, 0, 0⟩]⟩ := by
    rw [initiateCacheCell_luck0 0 0 _ (by decide) (by decide)]
    decide
  rw [h1, h2, h3, h4]
  exact ⟨by decide, by decide⟩

/-- **C4.**  Evicting a cache holding a non-empty coin sequence and then
letting the same cell re-enter the window restores exactly that
sequence (same coin identities), and the result is independent of the
deterministic generator: the spawn roll is skipped entirely. -/
theorem c4_restore_roundtrip (luck : String → ℚ) (lat lng : ℚ) (s : GameState)
    (cache : GameCache)
    (hc : lookupKey s.caches (coordKey lat lng) = some cache)
    (hne : cache.treasures ≠ []) :
    lookupKey (initiateCacheCell luck lat lng (evictCell (coordKey lat lng) s)).caches
        (coordKey lat lng) = some ⟨cache.treasures⟩ ∧
    ∀ luck2 : String → ℚ,
      initiateCacheCell luck2 lat lng (evictCell (coordKey lat lng) s) =
        initiateCacheCell luck lat lng (evictCell (coordKey lat lng) s) := by
  have he := evictCell_of_active hc
  have hnone : lookupKey (evictCell (coordKey lat lng) s).caches (coordKey lat lng) = none := by
    rw [he]
    exact lookupKey_removeKey_self _ _
  have hrest : restoreCacheState (evictCell (coordKey lat lng) s).cacheStates
      (coordKey lat lng) = cache.treasures := by
    rw [he]
    show (lookupKey (setOrAddKey _ _ _) _).getD [] = _
    rw [lookupKey_setOrAddKey_self]
    simp [mementoOf_eq]
  refine ⟨?_, ?_⟩
  · rw [initiateCacheCell_of_restored hnone hrest hne]
    show lookupKey (_ ++ [(coordKey lat lng, (⟨cache.treasures⟩ : GameCache))]) _ = _
    rw [lookupKey_append, hnone]
    simp [lookupKey_cons]
  · intro luck2
    rw [initiateCacheCell_of_restored hnone hrest hne,
      initiateCacheCell_of_restored hnone hrest hne]

/-- Witness for `c4_restore_roundtrip` at a concrete one-coin cache. -/
theorem c4_restore_roundtrip_witness :
    lookupKey (initiateCacheCell luck0 0 0
        (evictCell (coordKey 0 0)
          (⟨[(coordKey 0 0, ⟨[⟨0, 0, 0⟩]⟩)], [], [], [⟨0, 0, 0⟩]⟩ : GameState))).caches
      (coordKey 0 0) = some ⟨[⟨0, 0, 0⟩]⟩ ∧
    ∀ luck2 : String → ℚ,
      initiateCacheCell luck2 0 0
          (evictCell (coordKey 0 0)
            (⟨[(coordKey 0 0, ⟨[⟨0, 0, 0⟩]⟩)], [], [], [⟨0, 0, 0⟩]⟩ : GameState)) =
        initiateCacheCell luck0 0 0
          (evictCell (coordKey 0 0)
            (⟨[(coordKey 0 0, ⟨[⟨0, 0, 0⟩]⟩)], [], [], [⟨0, 0, 0⟩]⟩ : GameState)) :=
  c4_restore_roundtrip luck0 0 0 _ ⟨[⟨0, 0, 0⟩]⟩ (by decide) (by decide)

/-! ### LIFO collection (claim C5) -/

/-- `n` consecutive clicks of the Collect button on the same cache. -/
def collectN (lat lng : ℚ) : ℕ → GameState → GameState
  | 0, s => s
  | n + 1, s => collectN lat lng n (pickUpCoins lat lng s).2

/-- The user-treasure record `pickUpCoins` pushes for a popped coin. -/
def collectedTreasure (lat lng : ℚ) (c : Coin) : UserTreasure :=
  ⟨c.id, lat, lng, c.originalLat, c.originalLng⟩

theorem collectN_drain (lat lng : ℚ) (cs : List Coin) :
    ∀ s : GameState, lookupKey s.caches (coordKey lat lng) = some ⟨cs⟩ →
      lookupKey (collectN lat lng cs.length s).caches (coordKey lat lng) = some ⟨[]⟩ ∧
      (collectN lat lng cs.length s).playerTreasures =
        s.playerTreasures ++ cs.reverse.map (collectedTreasure lat lng) := by
  induction cs using List.reverseRecOn with
  | nil =>
    intro s hc
    exact ⟨hc, by simp [collectN]⟩
  | append_singleton ds c ih =>
    intro s hc
    have hstep := pickUpCoins_of_pop hc (show _ = ds ++ [c] from rfl)
    have hlen : (ds ++ [c]).length = ds.length + 1 := by simp
    rw [hlen]
    show lookupKey (collectN lat lng ds.length (pickUpCoins lat lng s).2).caches
        (coordKey lat lng) = some ⟨[]⟩ ∧
      (collectN lat lng ds.length (pickUpCoins lat lng s).2).playerTreasures = _
    have hlook : lookupKey ((pickUpCoins lat lng s).2).caches (coordKey lat lng) =
        some ⟨ds⟩ := by
      rw [hstep]
      exact lookupKey_setKey_self _ hc
    obtain ⟨hfin, hpt⟩ := ih _ hlook
    refine ⟨hfin, ?_⟩
    rw [hpt, hstep]
    simp [collectedTreasure]

/-- **C5.**  Collecting `n` times from a freshly spawned cache (coins
`mintCoins n`, sequence ids `0 .. n-1`) empties the cache and appends
the coins to the player inventory in LIFO order `n-1, n-2, ..., 0`,
each with its origin metadata unchanged. -/
theorem c5_lifo_collect (lat lng : ℚ) (n : ℕ) (s : GameState)
    (hc : lookupKey s.caches (coordKey lat lng) = some ⟨mintCoins n lat lng⟩) :
    lookupKey (collectN lat lng n s).caches (coordKey lat lng) = some ⟨[]⟩ ∧
    (collectN lat lng n s).playerTreasures =
      s.playerTreasures ++
        (mintCoins n lat lng).reverse.map (collectedTreasure lat lng) := by
  have h := collectN_drain lat lng (mintCoins n lat lng) s hc
  rwa [mintCoins_length] at h

/-- Witness for `c5_lifo_collect`: a two-coin cache yields coin `1`, then
coin `0`. -/
theorem c5_lifo_collect_witness :
    (collectN 0 0 2
      (⟨[(coordKey 0 0, ⟨mintCoins 2 0 0⟩)], [], [], []⟩ : GameState)).playerTreasures =
      [⟨1, 0, 0, 0, 0⟩, ⟨0, 0, 0, 0, 0⟩] := by
  have h := c5_lifo_collect 0 0 2
    (⟨[(coordKey 0 0, ⟨mintCoins 2 0 0⟩)], [], [], []⟩ : GameState) (by decide)
  rw [h.2]
  decide

/-! ### Failure atomicity (claim C6) -/

/-- **C6.**  Collect on an active cache with an empty coin sequence
fails with `emptyCache`, and deposit on an active cache while the
player inventory is empty fails with `emptyInventory`; in both cases
the entire game state — every cache's coin sequence, the player
inventory, the memento store — is returned unchanged. -/
theorem c6_error_atomicity :
    (∀ (lat lng : ℚ) (s : GameState) (cache : GameCache),
      lookupKey s.caches (coordKey lat lng) = some cache → cache.treasures = [] →
        pickUpCoins lat lng s = (.error .emptyCache, s)) ∧
    (∀ (lat lng : ℚ) (s : GameState) (cache : GameCache),
      lookupKey s.caches (coordKey lat lng) = some cache → s.playerTreasures = [] →
        returnCoin lat lng s = (.error .emptyInventory, s)) :=
  ⟨fun _ _ _ _ h ht => pickUpCoins_of_empty h ht,
   fun _ _ _ _ h hp => returnCoin_of_emptyInventory h hp⟩

/-- Witness for `c6_error_atomicity` at concrete states. -/
theorem c6_error_atomicity_witness :
    pickUpCoins 0 0 (⟨[(coordKey 0 0, ⟨[]⟩)], [⟨0, 0, 0, 0, 0⟩], [], []⟩ : GameState) =
      (.error .emptyCache,
        (⟨[(coordKey 0 0, ⟨[]⟩)], [⟨0, 0, 0, 0, 0⟩], [], []⟩ : GameState)) ∧
    returnCoin 0 0 (⟨[(coordKey 0 0, ⟨[⟨0, 0, 0⟩]⟩)], [], [], []⟩ : GameState) =
      (.error .emptyInventory,
        (⟨[(coordKey 0 0, ⟨[⟨0, 0, 0⟩]⟩)], [], [], []⟩ : GameState)) :=
  ⟨c6_error_atomicity.1 0 0 _ ⟨[]⟩ (by decide) rfl,
   c6_error_atomicity.2 0 0 _ ⟨[⟨0, 0, 0⟩]⟩ (by decide) rfl⟩

/-! ### Spawn coin-count bounds (claim C10) -/

/-- **C10.**  When `initiateCaches` in `main.ts` spawns a cache for a
cell with no restorable coins, the minted coin count lies in `[1, 10]`:
the single deterministic value `luck(cacheKey)` must be below
`CACHE_ODDS = 0.1` for the spawn to happen, and the same value yields
the count `Math.floor(luck(cacheKey) * 100) + 1`. -/
theorem c10_coin_bounds (luck : String → ℚ) (lat lng : ℚ) (s : GameState)
    (hnone : lookupKey s.caches (coordKey lat lng) = none)
    (hrest : restoreCacheState s.cacheStates (coordKey lat lng) = [])
    (h0 : 0 ≤ luck (mainSpawnRollKey lat lng))
    (hodds : luck (mainSpawnRollKey lat lng) < CACHE_ODDS) :
    ∃ cache : GameCache,
      lookupKey (initiateCacheCell luck lat lng s).caches (coordKey lat lng) = some cache ∧
      1 ≤ cache.treasures.length ∧ cache.treasures.length ≤ 10 := by
  have hkey : mainCountRollKey lat lng = mainSpawnRollKey lat lng := rfl
  have hfl0 : (0 : ℤ) ≤ ⌊luck (mainCountRollKey lat lng) * 100⌋ := by
    rw [hkey]
    exact Int.floor_nonneg.mpr (mul_nonneg h0 (by norm_num))
  have hfl10 : ⌊luck (mainCountRollKey lat lng) * 100⌋ < 10 := by
    rw [hkey]
    rw [Int.floor_lt]
    push_cast
    have : luck (mainSpawnRollKey lat lng) < 1 / 10 := by
      rw [CACHE_ODDS] at hodds
      exact hodds
    nlinarith
  have hn1 : 1 ≤ (⌊luck (mainCountRollKey lat lng) * 100⌋ + 1).toNat := by omega
  have hn10 : (⌊luck (mainCountRollKey lat lng) * 100⌋ + 1).toNat ≤ 10 := by omega
  rw [initiateCacheCell_of_fresh hnone hrest,
    if_pos ⟨hodds, by omega⟩]
  refine ⟨⟨mintCoins (⌊luck (mainCountRollKey lat lng) * 100⌋ + 1).toNat lat lng⟩, ?_, ?_, ?_⟩
  · show lookupKey (s.caches ++ [(coordKey lat lng, _)]) _ = _
    rw [lookupKey_append, hnone]
    simp [lookupKey_cons]
  · simpa [mintCoins_length] using hn1
  · simpa [mintCoins_length] using hn10

/-- Witness for `c10_coin_bounds` at the all-zero generator. -/
theorem c10_coin_bounds_witness :
    ∃ cache : GameCache,
      lookupKey (initiateCacheCell luck0 0 0 initState).caches (coordKey 0 0) = some cache ∧
      1 ≤ cache.treasures.length ∧ cache.treasures.length ≤ 10 :=
  c10_coin_bounds luck0 0 0 initState rfl rfl (by norm_num [luck0])
    (by norm_num [luck0, CACHE_ODDS])

/-! ### Generator key schemes (claim C7) -/

/-- The key whose `luck` value is the spawn-probability roll in the
`initiateCaches` variant contained in `board.ts` (the cache position
string itself). -/
def variantSpawnRollKey (lat lng : ℚ) : String := coordKey lat lng

/-- The key whose `luck` value determines the coin count in the
`board.ts` variant: `[adjustedLat, adjustedLng, "init"].toString()`,
which JavaScript renders as the comma-joined string
`` `${lat},${lng},init` ``. -/
def variantCountRollKey (lat lng : ℚ) : String := coordKey lat lng ++ ",init"

/-- The body of the `initiateCaches` double loop in the `board.ts`
variant for a single cell position (this variant has no memento
manager: the spawn roll runs whenever no cache is active). -/
def initiateCacheCellVariant (luck : String → ℚ) (lat lng : ℚ) (s : GameState) : GameState :=
  let cachePosition := coordKey lat lng
  if (lookupKey s.caches cachePosition).isSome then s
  else if luck (variantSpawnRollKey lat lng) < CACHE_ODDS then
    let numOfCoins := (⌊luck (variantCountRollKey lat lng) * 100⌋ + 1).toNat
    { s with
      caches := s.caches ++ [(cachePosition, ⟨mintCoins numOfCoins lat lng⟩)],
      minted := s.minted ++ mintCoins numOfCoins lat lng }
  else s

/-- **C7, counterexample.**  In `main.ts`'s `initiateCaches` the
spawn-probability roll and the coin-count roll use the *same* key (both
are `luck(cacheKey)`), already at cell `(0,0)`, so the keys are not
different and disjoint for every cell. -/
theorem c7_counterexample : mainSpawnRollKey 0 0 = mainCountRollKey 0 0 := rfl

/-- **C7 (amended).**  Only the `board.ts` variant of `initiateCaches`
uses disjoint key schemes: its coin-count key appends the suffix
`",init"` to the spawn key and therefore differs from it for every
cell; in `main.ts` both rolls use the identical key. -/
theorem c7_keys_amended (lat lng : ℚ) :
    variantCountRollKey lat lng ≠ variantSpawnRollKey lat lng ∧
    mainCountRollKey lat lng = mainSpawnRollKey lat lng := by
  refine ⟨?_, rfl⟩
  intro h
  have hlen := congrArg String.length h
  rw [variantCountRollKey, variantSpawnRollKey, String.length_append] at hlen
  have h5 : (",init" : String).length = 5 := rfl
  rw [h5] at hlen
  omega

/-! ### The grid registry of `board.ts` -/

/-- `interface Cell` from `board.ts`: integer grid coordinates. -/
structure Cell where
  i : ℤ
  j : ℤ
deriving DecidableEq

/-- The registry key `` `${i},${j}` `` used by `Board.getCanonicalCell`. -/
def cellKey (i j : ℤ) : String :=
  toString i ++ "," ++ toString j

/-!
Injectivity of `cellKey`, needed to know that the string-keyed registry
cannot conflate two distinct cells.  We prove the decimal rendering of
`Nat`/`Int` is injective and comma-free from first principles.
-/

theorem toDigitsCore_append (base fuel : ℕ) :
    ∀ (n : ℕ) (acc : List Char),
      Nat.toDigitsCore base fuel n acc = Nat.toDigitsCore base fuel n [] ++ acc := by
  induction fuel with
  | zero => intro n acc; simp [Nat.toDigitsCore]
  | succ f ih =>
    intro n acc
    simp only [Nat.toDigitsCore]
    by_cases h : n / base = 0
    · simp [h]
    · rw [if_neg h, if_neg h,
        ih (n / base) (Nat.digitChar (n % base) :: acc),
        ih (n / base) [Nat.digitChar (n % base)]]
      simp

theorem toDigitsCore_fuel (fuel : ℕ) :
    ∀ (fuel2 n : ℕ) (acc : List Char), n < fuel → n < fuel2 →
      Nat.toDigitsCore 10 fuel n acc = Nat.toDigitsCore 10 fuel2 n acc := by
  induction fuel with
  | zero => intro fuel2 n acc h1 _; omega
  | succ f ih =>
    intro fuel2 n acc h1 h2
    cases fuel2 with
    | zero => omega
    | succ f2 =>
      simp only [Nat.toDigitsCore]
      by_cases h : n / 10 = 0
      · simp [h]
      · rw [if_neg h, if_neg h]
        have hn : 0 < n := by omega
        have hlt : n / 10 < n := Nat.div_lt_self hn (by omega)
        exact ih f2 (n / 10) _ (by omega) (by omega)

/-- Numeric value of a decimal digit character. -/
def charToDigit (c : Char) : ℕ := c.toNat - 48

/-- Read a most-significant-first digit string back into a number. -/
def numFromDigits (l : List Char) : ℕ :=
  l.foldl (fun a c => a * 10 + charToDigit c) 0

theorem charToDigit_digitChar {m : ℕ} (h : m < 10) :
    charToDigit (Nat.digitChar m) = m := by
  interval_cases m <;> decide

theorem numFromDigits_concat (l : List Char) (c : Char) :
    numFromDigits (l ++ [c]) = numFromDigits l * 10 + charToDigit c := by
  simp [numFromDigits, List.foldl_append]

theorem numFromDigits_toDigits : ∀ n : ℕ, numFromDigits (Nat.toDigits 10 n) = n := by
  intro n
  induction n using Nat.strong_induction_on with
  | _ n ih =>
    by_cases h : n / 10 = 0
    · have hn : n < 10 := by omega
      have hdig : Nat.toDigits 10 n = [Nat.digitChar (n % 10)] := by
        simp [Nat.toDigits, Nat.toDigitsCore, h]
      rw [hdig]
      have hv : numFromDigits [Nat.digitChar (n % 10)] =
          charToDigit (Nat.digitChar (n % 10)) := by
        simp [numFromDigits]
      rw [hv, charToDigit_digitChar (by omega)]
      omega
    · have hlt : n / 10 < n := Nat.div_lt_self (by omega) (by omega)
      have step : Nat.toDigits 10 n =
          Nat.toDigits 10 (n / 10) ++ [Nat.digitChar (n % 10)] := by
        show Nat.toDigitsCore 10 (n + 1) n [] = _
        simp only [Nat.toDigitsCore]
        rw [if_neg h, toDigitsCore_append 10 n (n / 10) [Nat.digitChar (n % 10)]]
        congr 1
        exact toDigitsCore_fuel n (n / 10 + 1) (n / 10) [] (by omega) (by omega)
      rw [step, numFromDigits_concat, ih (n / 10) hlt, charToDigit_digitChar (by omega)]
      omega

theorem toDigits_ne_nil (n : ℕ) : Nat.toDigits 10 n ≠ [] := by
  show Nat.toDigitsCore 10 (n + 1) n [] ≠ []
  simp only [Nat.toDigitsCore]
  by_cases h : n / 10 = 0
  · simp [h]
  · rw [if_neg h, toDigitsCore_append]
    simp

theorem data_asString (l : List Char) : (List.asString l).data = l := rfl

theorem natRepr_data (n : ℕ) : (Nat.repr n).data = Nat.toDigits 10 n := rfl

theorem natRepr_injective {a b : ℕ} (h : Nat.repr a = Nat.repr b) : a = b := by
  have hd : Nat.toDigits 10 a = Nat.toDigits 10 b := by
    have := congrArg String.data h
    rwa [natRepr_data, natRepr_data] at this
  calc a = numFromDigits (Nat.toDigits 10 a) := (numFromDigits_toDigits a).symm
    _ = numFromDigits (Nat.toDigits 10 b) := by rw [hd]
    _ = b := numFromDigits_toDigits b

/-- The ten decimal digit characters. -/
def decDigits : List Char := ['0', '1', '2', '3', '4', '5', '6', '7', '8', '9']

theorem digitChar_mem_decDigits {m : ℕ} (h : m < 10) : Nat.digitChar m ∈ decDigits := by
  interval_cases m <;> decide

theorem mem_toDigitsCore (fuel : ℕ) :
    ∀ (n : ℕ) (acc : List Char) (c : Char),
      c ∈ Nat.toDigitsCore 10 fuel n acc → c ∈ acc ∨ c ∈ decDigits := by
  induction fuel with
  | zero =>
    intro n acc c hc
    exact Or.inl (by simpa [Nat.toDigitsCore] using hc)
  | succ f ih =>
    intro n acc c hc
    simp only [Nat.toDigitsCore] at hc
    by_cases h : n / 10 = 0
    · rw [if_pos h] at hc
      rcases List.mem_cons.mp hc with h1 | h1
      · exact Or.inr (h1 ▸ digitChar_mem_decDigits (Nat.mod_lt n (by omega)))
      · exact Or.inl h1
    · rw [if_neg h] at hc
      rcases ih (n / 10) _ c hc with h1 | h1
      · rcases List.mem_cons.mp h1 with h2 | h2
        · exact Or.inr (h2 ▸ digitChar_mem_decDigits (Nat.mod_lt n (by omega)))
        · exact Or.inl h2
      · exact Or.inr h1

theorem mem_toDigits {n : ℕ} {c : Char} (h : c ∈ Nat.toDigits 10 n) : c ∈ decDigits := by
  rcases mem_toDigitsCore (n + 1) n [] c h with h1 | h1
  · simp at h1
  · exact h1

theorem data_append (a b : String) : (a ++ b).data = a.data ++ b.data := rfl

theorem string_data_inj {s t : String} (h : s.data = t.data) : s = t :=
  String.ext h

theorem intStr_ofNat (m : ℕ) : toString (Int.ofNat m) = Nat.repr m := rfl

theorem intStr_negSucc (m : ℕ) :
    toString (Int.negSucc m) = "-" ++ Nat.repr (m + 1) := rfl

theorem intStr_data_ofNat (m : ℕ) :
    (toString (Int.ofNat m)).data = Nat.toDigits 10 m := rfl

theorem intStr_data_negSucc (m : ℕ) :
    (toString (Int.negSucc m)).data = '-' :: Nat.toDigits 10 (m + 1) := rfl

theorem comma_not_mem_intStr (i : ℤ) : ',' ∉ (toString i).data := by
  cases i with
  | ofNat m =>
    rw [intStr_data_ofNat]
    intro h
    have := mem_toDigits h
    simp [decDigits] at this
  | negSucc m =>
    rw [intStr_data_negSucc]
    intro h
    rcases List.mem_cons.mp h with h1 | h1
    · simp at h1
    · have := mem_toDigits h1
      simp [decDigits] at this

theorem intStr_injective {a b : ℤ} (h : toString a = toString b) : a = b := by
  cases a with
  | ofNat m =>
    cases b with
    | ofNat n =>
      rw [intStr_ofNat, intStr_ofNat] at h
      exact congrArg Int.ofNat (natRepr_injective h)
    | negSucc n =>
      exfalso
      have hd := congrArg String.data h
      rw [intStr_data_ofNat, intStr_data_negSucc] at hd
      have : '-' ∈ Nat.toDigits 10 m := by
        rw [hd]
        exact List.mem_cons_self _ _
      have := mem_toDigits this
      simp [decDigits] at this
  | negSucc m =>
    cases b with
    | ofNat n =>
      exfalso
      have hd := congrArg String.data h
      rw [intStr_data_ofNat, intStr_data_negSucc] at hd
      have : '-' ∈ Nat.toDigits 10 n := by
        rw [← hd]
        exact List.mem_cons_self _ _
      have := mem_toDigits this
      simp [decDigits] at this
    | negSucc n =>
      have hd := congrArg String.data h
      rw [intStr_data_negSucc, intStr_data_negSucc] at hd
      have htl : Nat.toDigits 10 (m + 1) = Nat.toDigits 10 (n + 1) := by
        injection hd
      have : Nat.repr (m + 1) = Nat.repr (n + 1) := by
        apply string_data_inj
        rw [natRepr_data, natRepr_data]
        exact htl
      have hmn : m = n := by
        have := natRepr_injective this
        omega
      exact congrArg Int.negSucc hmn

theorem comma_split :
    ∀ (l₁ l₂ r₁ r₂ : List Char), ',' ∉ l₁ → ',' ∉ l₂ →
      l₁ ++ ',' :: r₁ = l₂ ++ ',' :: r₂ → l₁ = l₂ ∧ r₁ = r₂ := by
  intro l₁
  induction l₁ with
  | nil =>
    intro l₂ r₁ r₂ _ h2 he
    cases l₂ with
    | nil => simpa using he
    | cons y ys =>
      rw [List.nil_append, List.cons_append] at he
      have hy : y = ',' := by
        have := congrArg (fun l => l.head?) he
        simpa using this.symm
      exact absurd (hy ▸ List.mem_cons_self y ys) h2
  | cons x xs ih =>
    intro l₂ r₁ r₂ h1 h2 he
    cases l₂ with
    | nil =>
      rw [List.nil_append, List.cons_append] at he
      have hx : x = ',' := by
        have := congrArg (fun l => l.head?) he
        simpa using this
      exact absurd (hx ▸ List.mem_cons_self x xs) h1
    | cons y ys =>
      rw [List.cons_append, List.cons_append] at he
      injection he with hxy hrest
      obtain ⟨ha, hb⟩ := ih ys r₁ r₂ (fun hm => h1 (List.mem_cons_of_mem x hm))
        (fun hm => h2 (List.mem_cons_of_mem y hm)) hrest
      exact ⟨by rw [hxy, ha], hb⟩

theorem cellKey_data (i j : ℤ) :
    (cellKey i j).data = (toString i).data ++ ',' :: (toString j).data := by
  show ((toString i ++ ",") ++ toString j).data = _
  rw [data_append, data_append]
  simp

theorem cellKey_injective {a b c d : ℤ} (h : cellKey a b = cellKey c d) :
    a = c ∧ b = d := by
  have hd := congrArg String.data h
  rw [cellKey_data, cellKey_data] at hd
  obtain ⟨h1, h2⟩ := comma_split _ _ _ _ (comma_not_mem_intStr a)
    (comma_not_mem_intStr c) hd
  exact ⟨intStr_injective (string_data_inj h1), intStr_injective (string_data_inj h2)⟩

/-- A Leaflet `LatLng` pair. -/
structure LatLng where
  lat : ℚ
  lng : ℚ
deriving DecidableEq

/-- The `Board` class of `board.ts`: tile parameters plus the
`knownCells` flyweight registry (a `Map<string, Cell>`). -/
structure Board where
  tileWidth : ℚ
  tileVisibilityRadius : ℤ
  knownCells : List (String × Cell)
deriving DecidableEq

/-- `Board.getCanonicalCell`: look the cell up by its formatted key,
inserting `{ i, j }` first when absent, and return the stored instance
(the source does `set` then `get`; returning the freshly inserted value
is the same thing). -/
def Board.getCanonicalCell (b : Board) (cell : Cell) : Cell × Board :=
  let key := cellKey cell.i cell.j
  match lookupKey b.knownCells key with
  | some c => (c, b)
  | none =>
    (⟨cell.i, cell.j⟩,
      { b with knownCells := b.knownCells ++ [(key, ⟨cell.i, cell.j⟩)] })

/-- `Board.getCellForPoint`: floor the coordinates scaled by the
hard-coded `1e4` (the `tileWidth` field is *not* consulted), then
canonicalize. -/
def Board.getCellForPoint (b : Board) (point : LatLng) : Cell × Board :=
  b.getCanonicalCell ⟨⌊point.lat * 10000⌋, ⌊point.lng * 10000⌋⟩

/-- One iteration of the `getCellsNearPoint` loop body: canonicalize the
nearby cell and push it onto `resultCells`. -/
def canonStep (acc2 : List Cell × Board) (cell : Cell) : List Cell × Board :=
  match acc2.2.getCanonicalCell cell with
  | (nearbyCell, b2) => (acc2.1 ++ [nearbyCell], b2)

/-- `Board.getCellsNearPoint`: resolve the origin cell, then walk the
square `di`/`dj` neighborhood (both from `-tileVisibilityRadius` to
`tileVisibilityRadius`, `di` outer), pushing each canonicalized cell. -/
def Board.getCellsNearPoint (b : Board) (point : LatLng) : List Cell × Board :=
  match b.getCellForPoint point with
  | (originCell, b1) =>
    (intRange (-b.tileVisibilityRadius) b.tileVisibilityRadius).foldl
      (fun acc di =>
        (intRange (-b.tileVisibilityRadius) b.tileVisibilityRadius).foldl
          (fun acc2 dj => canonStep acc2 ⟨originCell.i + di, originCell.j + dj⟩)
          acc)
      ([], b1)

/-- Well-formedness of the registry: every entry was stored under the
formatted key of its own coordinates (true of every board built through
`getCanonicalCell`, and in particular of the empty registry a `Board`
starts with). -/
def Board.WF (b : Board) : Prop :=
  ∀ e ∈ b.knownCells, e.1 = cellKey e.2.i e.2.j

instance (b : Board) : Decidable b.WF := by
  unfold Board.WF; infer_instance

theorem lookupKey_mem {β : Type} {m : List (String × β)} {k : String} {v : β}
    (h : lookupKey m k = some v) : (k, v) ∈ m := by
  induction m with
  | nil => simp [lookupKey] at h
  | cons e es ih =>
    rw [lookupKey_cons] at h
    by_cases he : e.1 = k
    · rw [if_pos he] at h
      obtain ⟨e1, e2⟩ := e
      simp only at he
      subst he
      injection h with h
      subst h
      exact List.mem_cons_self _ _
    · rw [if_neg he] at h
      exact List.mem_cons_of_mem _ (ih h)

theorem wf_lookup {b : Board} (hwf : b.WF) {i j : ℤ} {c : Cell}
    (h : lookupKey b.knownCells (cellKey i j) = some c) : c = ⟨i, j⟩ := by
  have hk := hwf _ (lookupKey_mem h)
  obtain ⟨hi, hj⟩ := cellKey_injective hk.symm
  obtain ⟨ci, cj⟩ := c
  simp only at hi hj
  rw [hi, hj]

theorem getCanonicalCell_eq {b : Board} (hwf : b.WF) (cell : Cell) :
    (b.getCanonicalCell cell).1 = cell := by
  obtain ⟨ci, cj⟩ := cell
  cases hc : lookupKey b.knownCells (cellKey ci cj) with
  | some c =>
    have hv : c = ⟨ci, cj⟩ := wf_lookup hwf hc
    simp [Board.getCanonicalCell, hc, hv]
  | none =>
    simp [Board.getCanonicalCell, hc]

theorem getCanonicalCell_wf {b : Board} (hwf : b.WF) (cell : Cell) :
    (b.getCanonicalCell cell).2.WF := by
  obtain ⟨ci, cj⟩ := cell
  cases hc : lookupKey b.knownCells (cellKey ci cj) with
  | some c =>
    have : (Board.getCanonicalCell b ⟨ci, cj⟩).2 = b := by
      simp [Board.getCanonicalCell, hc]
    rw [this]
    exact hwf
  | none =>
    have hb2 : (Board.getCanonicalCell b ⟨ci, cj⟩).2 =
        { b with knownCells := b.knownCells ++ [(cellKey ci cj, ⟨ci, cj⟩)] } := by
      simp [Board.getCanonicalCell, hc]
    rw [hb2]
    intro e he
    simp only at he
    rcases List.mem_append.mp he with h1 | h1
    · exact hwf e h1
    · rw [List.mem_singleton] at h1
      rw [h1]

theorem getCanonicalCell_idem (b : Board) (cell : Cell) :
    ((b.getCanonicalCell cell).2).getCanonicalCell cell = b.getCanonicalCell cell := by
  obtain ⟨ci, cj⟩ := cell
  cases hc : lookupKey b.knownCells (cellKey ci cj) with
  | some c => simp [Board.getCanonicalCell, hc]
  | none => simp [Board.getCanonicalCell, hc, lookupKey_append, lookupKey_cons]

/-! ### Canonicalization (claim C3) -/

/-- **C3.**  Two points whose scaled coordinates floor to the same
`(i, j)` resolve — through the registry — to the same cell value, and
the second lookup leaves the registry untouched: repeated calls return
the identical stored instance. -/
theorem c3_canonicalization (b : Board) (p1 p2 : LatLng)
    (hlat : ⌊p1.lat * 10000⌋ = ⌊p2.lat * 10000⌋)
    (hlng : ⌊p1.lng * 10000⌋ = ⌊p2.lng * 10000⌋) :
    (((b.getCellForPoint p1).2).getCellForPoint p2).1 = (b.getCellForPoint p1).1 ∧
    (((b.getCellForPoint p1).2).getCellForPoint p2).2 = (b.getCellForPoint p1).2 := by
  unfold Board.getCellForPoint
  rw [← hlat, ← hlng]
  exact ⟨congrArg Prod.fst (getCanonicalCell_idem b _),
    congrArg Prod.snd (getCanonicalCell_idem b _)⟩

/-- Witness for `c3_canonicalization`: two distinct points in cell
`(1, 0)` of the default board. -/
theorem c3_canonicalization_witness :
    ⌊(1/10000 : ℚ) * 10000⌋ = ⌊(3/20000 : ℚ) * 10000⌋ ∧
    ((((⟨TILE_UNIT, 8, []⟩ : Board).getCellForPoint ⟨1/10000, 0⟩).2).getCellForPoint
        ⟨3/20000, 0⟩).1 =
      ((⟨TILE_UNIT, 8, []⟩ : Board).getCellForPoint ⟨1/10000, 0⟩).1 := by
  have hlat : ⌊(1/10000 : ℚ) * 10000⌋ = ⌊(3/20000 : ℚ) * 10000⌋ := by norm_num
  exact ⟨hlat,
    (c3_canonicalization ⟨TILE_UNIT, 8, []⟩ ⟨1/10000, 0⟩ ⟨3/20000, 0⟩ hlat (by norm_num)).1⟩

/-! ### The square neighborhood (claim C9) -/

theorem canonFold_inner (i0 j0 : ℤ) (l : List ℤ) :
    ∀ (acc : List Cell) (b : Board), b.WF →
      (l.foldl (fun acc2 dj => canonStep acc2 ⟨i0, j0 + dj⟩) (acc, b)).1 =
        acc ++ l.map (fun dj => (⟨i0, j0 + dj⟩ : Cell)) ∧
      (l.foldl (fun acc2 dj => canonStep acc2 ⟨i0, j0 + dj⟩) (acc, b)).2.WF := by
  induction l with
  | nil =>
    intro acc b hwf
    simpa using hwf
  | cons dj rest ih =>
    intro acc b hwf
    have hstep : canonStep (acc, b) ⟨i0, j0 + dj⟩ =
        (acc ++ [⟨i0, j0 + dj⟩], (b.getCanonicalCell ⟨i0, j0 + dj⟩).2) := by
      unfold canonStep
      have hv := getCanonicalCell_eq hwf (⟨i0, j0 + dj⟩ : Cell)
      rcases hcc : b.getCanonicalCell ⟨i0, j0 + dj⟩ with ⟨c, b2⟩
      rw [hcc] at hv
      simp only at hv
      simp [hv]
    rw [List.foldl_cons, hstep]
    obtain ⟨h1, h2⟩ := ih (acc ++ [⟨i0, j0 + dj⟩]) _
      (getCanonicalCell_wf hwf ⟨i0, j0 + dj⟩)
    refine ⟨?_, h2⟩
    rw [h1]
    simp

theorem canonFold_outer (i0 j0 : ℤ) (inner louter : List ℤ) :
    ∀ (acc : List Cell) (b : Board), b.WF →
      (louter.foldl
          (fun acc di => inner.foldl
            (fun acc2 dj => canonStep acc2 ⟨i0 + di, j0 + dj⟩) acc)
          (acc, b)).1 =
        acc ++ louter.flatMap (fun di => inner.map (fun dj => (⟨i0 + di, j0 + dj⟩ : Cell))) ∧
      (louter.foldl
          (fun acc di => inner.foldl
            (fun acc2 dj => canonStep acc2 ⟨i0 + di, j0 + dj⟩) acc)
          (acc, b)).2.WF := by
  induction louter with
  | nil =>
    intro acc b hwf
    simpa using hwf
  | cons di rest ih =>
    intro acc b hwf
    rw [List.foldl_cons]
    obtain ⟨h1, h2⟩ := canonFold_inner (i0 + di) j0 inner acc b hwf
    rcases hin : inner.foldl (fun acc2 dj => canonStep acc2 ⟨i0 + di, j0 + dj⟩) (acc, b)
      with ⟨acc', b'⟩
    rw [hin] at h1 h2
    simp only at h1 h2
    obtain ⟨h3, h4⟩ := ih acc' b' h2
    refine ⟨?_, h4⟩
    rw [h3, h1]
    simp

/-- The `(2·radius+1)²` cells around `(i, j)` in row-major order
(`di` ascending outer, `dj` ascending inner), written out directly;
this is the order the spec prescribes, to be compared with what the
code produces. -/
def rowMajorCells (i j r : ℤ) : List Cell :=
  (intRange (-r) r).flatMap (fun di => (intRange (-r) r).map (fun dj => ⟨i + di, j + dj⟩))

theorem intRange_length (lo hi : ℤ) : (intRange lo hi).length = (hi + 1 - lo).toNat := by
  rw [intRange, List.length_map, List.length_range]

theorem sum_map_constant (l : List ℤ) (c : ℕ) : (l.map (fun _ => c)).sum = l.length * c := by
  induction l with
  | nil => simp
  | cons x xs ih => simp [ih, Nat.succ_mul, Nat.add_comm]

theorem rowMajorCells_length (i j r : ℤ) :
    (rowMajorCells i j r).length = (2 * r + 1).toNat * (2 * r + 1).toNat := by
  unfold rowMajorCells
  rw [List.length_flatMap]
  have hmap : ((intRange (-r) r).map
      (List.length ∘ fun di => (intRange (-r) r).map (fun dj => (⟨i + di, j + dj⟩ : Cell)))) =
      (intRange (-r) r).map (fun _ => (2 * r + 1).toNat) := by
    apply List.map_congr_left
    intro a _
    simp [intRange_length]
    congr 1
    ring
  rw [hmap, sum_map_constant, intRange_length]
  have : (r + 1 - -r) = 2 * r + 1 := by ring
  rw [this]

theorem rowMajorCells_zero (i j : ℤ) : rowMajorCells i j 0 = [⟨i, j⟩] := by
  have h : intRange (-(0 : ℤ)) 0 = [0] := by
    rw [intRange]
    norm_num
    decide
  rw [rowMajorCells, h]
  simp

/-- **C9.**  For a well-formed board with radius `r ≥ 0`,
`getCellsNearPoint` returns exactly the `(2r+1)²` canonicalized cells
of the square neighborhood of the origin cell, in row-major order
(`i` ascending outer, `j` ascending inner); with `r = 0` only the
origin cell is returned. -/
theorem c9_cells_near (b : Board) (p : LatLng) (hwf : b.WF)
    (hr : 0 ≤ b.tileVisibilityRadius) :
    (b.getCellsNearPoint p).1 =
      rowMajorCells ⌊p.lat * 10000⌋ ⌊p.lng * 10000⌋ b.tileVisibilityRadius ∧
    (b.getCellsNearPoint p).1.length = (2 * b.tileVisibilityRadius + 1).toNat ^ 2 ∧
    (b.tileVisibilityRadius = 0 →
      (b.getCellsNearPoint p).1 = [⟨⌊p.lat * 10000⌋, ⌊p.lng * 10000⌋⟩]) := by
  rcases hcp : b.getCellForPoint p with ⟨originCell, b1⟩
  have hcp' := hcp
  rw [Board.getCellForPoint] at hcp'
  have ho : originCell = ⟨⌊p.lat * 10000⌋, ⌊p.lng * 10000⌋⟩ := by
    have := getCanonicalCell_eq hwf (⟨⌊p.lat * 10000⌋, ⌊p.lng * 10000⌋⟩ : Cell)
    rw [hcp'] at this
    exact this
  have hb1 : b1.WF := by
    have := getCanonicalCell_wf hwf (⟨⌊p.lat * 10000⌋, ⌊p.lng * 10000⌋⟩ : Cell)
    rw [hcp'] at this
    exact this
  have hmain : (b.getCellsNearPoint p).1 =
      rowMajorCells ⌊p.lat * 10000⌋ ⌊p.lng * 10000⌋ b.tileVisibilityRadius := by
    unfold Board.getCellsNearPoint
    rw [hcp]
    obtain ⟨hlist, _⟩ := canonFold_outer originCell.i originCell.j
      (intRange (-b.tileVisibilityRadius) b.tileVisibilityRadius)
      (intRange (-b.tileVisibilityRadius) b.tileVisibilityRadius) [] b1 hb1
    rw [hlist, ho, rowMajorCells]
    simp
  refine ⟨hmain, ?_, ?_⟩
  · rw [hmain, rowMajorCells_length, pow_two]
  · intro h0
    rw [hmain, h0, rowMajorCells_zero]

/-- Witness for `c9_cells_near` at a radius-1 board around the origin. -/
theorem c9_cells_near_witness :
    (⟨TILE_UNIT, 1, []⟩ : Board).WF ∧ (0 : ℤ) ≤ 1 ∧
    ((⟨TILE_UNIT, 1, []⟩ : Board).getCellsNearPoint ⟨0, 0⟩).1 =
      rowMajorCells ⌊(0 : ℚ) * 10000⌋ ⌊(0 : ℚ) * 10000⌋ 1 ∧
    ((⟨TILE_UNIT, 1, []⟩ : Board).getCellsNearPoint ⟨0, 0⟩).1.length = 9 := by
  have h := c9_cells_near ⟨TILE_UNIT, 1, []⟩ ⟨0, 0⟩ (by decide) (by norm_num)
  exact ⟨by decide, by norm_num, h.1, by rw [h.2.1]; rfl⟩

/-! ### Cell-for-point flooring (claim C8) -/

/-- **C8, counterexample.**  A `Board` constructed with tile width `1`
still floors against the hard-coded `1e4`: the point `(5/2, 0)` lands in
cell `(25000, 0)`, not in the claimed `(⌊(5/2)/1⌋, ⌊0/1⌋) = (2, 0)`. -/
theorem c8_counterexample :
    ((⟨1, 0, []⟩ : Board).getCellForPoint ⟨5/2, 0⟩).1 ≠
      ⟨⌊(5/2 : ℚ) / 1⌋, ⌊(0 : ℚ) / 1⌋⟩ := by
  have h1 : ((⟨1, 0, []⟩ : Board).getCellForPoint ⟨5/2, 0⟩).1 = ⟨25000, 0⟩ := by
    have ha : ⌊(5/2 : ℚ) * 10000⌋ = 25000 := by norm_num
    have hb : ⌊(0 : ℚ) * 10000⌋ = 0 := by norm_num
    show ((⟨1, 0, []⟩ : Board).getCanonicalCell
      ⟨⌊(5/2 : ℚ) * 10000⌋, ⌊(0 : ℚ) * 10000⌋⟩).1 = _
    rw [ha, hb]
    exact getCanonicalCell_eq (by decide) _
  have h2 : ⌊(5/2 : ℚ) / 1⌋ = 2 := by norm_num
  have h3 : ⌊(0 : ℚ) / 1⌋ = 0 := by norm_num
  rw [h1, h2, h3]
  decide

/-- **C8 (amended).**  For every well-formed board and point,
`getCellForPoint` returns `(⌊lat·1e4⌋, ⌊lng·1e4⌋)` — flooring toward
negative infinity — regardless of the `tileWidth` the board was
constructed with; this coincides with the claimed
`(⌊lat/w⌋, ⌊lng/w⌋)` exactly when `tileWidth = 1e-4`. -/
theorem c8_floor_amended (b : Board) (p : LatLng) (hwf : b.WF) :
    (b.getCellForPoint p).1 = ⟨⌊p.lat * 10000⌋, ⌊p.lng * 10000⌋⟩ ∧
    (b.tileWidth = TILE_UNIT →
      (b.getCellForPoint p).1 = ⟨⌊p.lat / b.tileWidth⌋, ⌊p.lng / b.tileWidth⌋⟩) := by
  have h1 : (b.getCellForPoint p).1 = ⟨⌊p.lat * 10000⌋, ⌊p.lng * 10000⌋⟩ :=
    getCanonicalCell_eq hwf _
  refine ⟨h1, fun hw => ?_⟩
  rw [h1, hw, TILE_UNIT]
  have harg : ∀ q : ℚ, q / (1 / 10000 : ℚ) = q * 10000 := by
    intro q
    field_simp
  rw [harg p.lat, harg p.lng]

/-- Witness for `c8_floor_amended` at negative coordinates (floor, not
truncation: `⌊-10000/3⌋ = -3334`). -/
theorem c8_floor_amended_witness :
    (⟨TILE_UNIT, 8, []⟩ : Board).WF ∧
    ((⟨TILE_UNIT, 8, []⟩ : Board).getCellForPoint ⟨-1/3, -1/2⟩).1 =
      ⟨⌊(-1/3 : ℚ) / TILE_UNIT⌋, ⌊(-1/2 : ℚ) / TILE_UNIT⌋⟩ ∧
    ⌊(-1/3 : ℚ) / TILE_UNIT⌋ = -3334 := by
  refine ⟨by decide, ?_, by norm_num [TILE_UNIT]⟩
  exact (c8_floor_amended ⟨TILE_UNIT, 8, []⟩ ⟨-1/3, -1/2⟩ (by decide)).2 rfl
